import Mathlib

/-!
Verification development for the mosaico backend's asset pipelines.

The definitions below are a shallow embedding of the two algorithmic cores of
the repository: the multipart upload pipeline (`src/server/filemanager/index.js`)
and the export/zip pipeline (`src/server/download.js`).  Pure JavaScript string
and list manipulation is translated into executable Lean functions over
`String`/`List Char`; the promise-based coordination is modelled either as a
function of the settled outcomes (`Promise.all` over an outcome list) or as a
small-step transition system over an explicit state.  External npm libraries
(`lodash`, `mime-types`, `he`, node's legacy `url.parse`, the `request` and
`archiver` event interfaces) are embedded according to their documented
behaviour, restricted to the options the source uses.
-/

/-! ## Basic list-of-characters utilities shared by both pipelines -/

/-- Boolean prefix test on character lists (used to model JavaScript string
searching primitives). -/
def leadsWith : List Char → List Char → Bool
  | [], _ => true
  | _ :: _, [] => false
  | a :: as, b :: bs => a == b && leadsWith as bs

/-- Boolean substring test: does `pat` occur anywhere in the list? -/
def hasSub (pat : List Char) : List Char → Bool
  | [] => leadsWith pat []
  | l@(_ :: t) => leadsWith pat l || hasSub pat t

/-- JavaScript `String.prototype.replace` with a plain-string pattern replaces
only the first occurrence; an empty pattern matches at position 0. -/
def replaceFirstList (pat rep : List Char) : List Char → List Char
  | [] => if pat.isEmpty then rep else []
  | l@(c :: t) =>
    if leadsWith pat l then rep ++ l.drop pat.length
    else c :: replaceFirstList pat rep t

/-- String wrapper for the first-occurrence replacement. -/
def jsReplaceFirst (s pat rep : String) : String :=
  ⟨replaceFirstList pat.data rep.data s.data⟩

/-! ## Upload pipeline: `src/server/filemanager/index.js` -/

/-- A part of a multipart submission as formidable hands it to the `file`
handler: the form field name, the client-supplied file name (absent when the
part carries no filename), the mutable `originalName` slot filled in by
`onFile`, the byte size, the md5 content hash, the declared MIME type and, for
the markup part, its text content. -/
structure UpFile where
  fieldName : String
  name : Option String
  originalName : Option String
  size : Nat
  hash : String
  type : String
  text : String
deriving DecidableEq, Repr

/-- Embedding of the `mime-types` lookup table restricted to the types this
development evaluates; `mime.extension` yields `false` (here `none`) for a
MIME type absent from the table, exactly as the npm package does. -/
def mimeExtension (t : String) : Option String :=
  if t == "image/png" then some "png"
  else if t == "image/jpeg" then some "jpeg"
  else if t == "image/gif" then some "gif"
  else if t == "text/html" then some "html"
  else none

/-- One character of the slug alphabet: letters are lower-cased, digits kept,
anything else collapses to a hyphen. -/
def slugCanonChar (c : Char) : Char :=
  if c.isAlpha then c.toLower else if c.isDigit then c else '-'

/-- Collapse runs of hyphens to a single hyphen. -/
def collapseDashes : List Char → List Char
  | [] => []
  | [c] => [c]
  | c :: d :: t =>
    if c == '-' && d == '-' then collapseDashes (d :: t)
    else c :: collapseDashes (d :: t)

/-- Drop hyphens at both ends. -/
def trimDashes (cs : List Char) : List Char :=
  ((cs.dropWhile (fun c => c == '-')).reverse.dropWhile (fun c => c == '-')).reverse

/-- Modelled from the spec: the Name Normalizer's `slug` contract
(`shared/slug-filename.js` and its `speakingurl` core are not under `src/`).
Per the spec it lower-cases, collapses whitespace and punctuation to hyphens
and always produces a string over lowercase letters, digits and hyphens. -/
def slug (s : String) : String :=
  ⟨trimDashes (collapseDashes (s.data.map slugCanonChar))⟩

/-- Embedding of node's `path.extname` for slash-free names: the suffix from
the last dot, unless that dot starts the name or there is none. -/
def extname (s : String) : String :=
  let cs := s.data
  let tailLen := (cs.reverse.takeWhile (fun c => c != '.')).length
  if tailLen == cs.length then ""
  else
    let dotPos := cs.length - tailLen - 1
    if dotPos == 0 then "" else ⟨cs.drop dotPos⟩

/-- Modelled from the spec: `shared/slug-filename.js` is not under `src/`.
The spec's Name Normalizer slugs a user-supplied filename into a
filesystem-safe token; the caller in `onFile` then strips `path.extname` of
the result, so the model slugs the base name and the extension separately and
keeps the dot. A missing name is treated as the empty string and slugs to the
empty string (the spec drops parts with a missing name). -/
def slugFilename (s : String) : String :=
  let e := extname s
  if e == "" then slug s
  else slug ⟨s.data.take (s.data.length - e.data.length)⟩ ++ "." ++ slug ⟨e.data.drop 1⟩

/-- Result of the `onFile` handler on one part: the (possibly mutated) file
record, the write job pushed onto `uploads` (the mutated record handed to
`writeStreamFromPath`) if any, and whether the empty-slug warning fired. -/
structure OnFileRes where
  file : UpFile
  job : Option UpFile
  warned : Bool
deriving DecidableEq, Repr

/-- Embedding of `onFile` (filemanager/index.js lines 91-110): drop zero-size
parts and the reserved markup field; slug the client file name and strip its
extension; warn and skip when the slug is empty; otherwise resolve the
extension from the MIME type (a missing mapping interpolates as the literal
string `false`), rename the file to `prefix-hash.ext`, record the slugged
original name, and push the write job. -/
def processOnFile (pfx : String) (f : UpFile) : OnFileRes :=
  if f.size == 0 then ⟨f, none, false⟩
  else if f.fieldName == "markup" then ⟨f, none, false⟩
  else
    let fileName0 := slugFilename (f.name.getD "")
    let fileName := jsReplaceFirst fileName0 (extname fileName0) ""
    if fileName == "" then ⟨f, none, true⟩
    else
      let ext := (mimeExtension f.type).getD "false"
      let f' := { f with name := some (pfx ++ "-" ++ f.hash ++ "." ++ ext),
                         originalName := some (fileName ++ "." ++ ext) }
      ⟨f', some f', false⟩

/-- Insert-or-overwrite on an association list, modelling assignment to a
JavaScript object key. -/
def upsertAssoc (l : List (String × String)) (k v : String) : List (String × String) :=
  if l.any (fun p => p.1 == k) then l.map (fun p => if p.1 == k then (k, v) else p)
  else l ++ [(k, v)]

/-- Embedding of `imageToFields` (filemanager/index.js lines 33-38): zero-size
and nameless files contribute nothing; otherwise the stored name is recorded
under the original name (a JavaScript object coerces a missing key to the
string `undefined`). -/
def imageToFields (acc : List (String × String)) (f : UpFile) : List (String × String) :=
  if f.size == 0 then acc
  else
    match f.name with
    | none => acc
    | some n => upsertAssoc acc (f.originalName.getD "undefined") n

/-- The `assets` object assembled by `handleTemplatesUploads` from the files
uploaded under the `images` field. -/
def buildAssets (files : List UpFile) : List (String × String) :=
  (files.filter (fun f => f.fieldName == "images")).foldl imageToFields []

/-- The markup field: read from the markup part when it has a name. -/
def markupOf (files : List UpFile) : Option String :=
  match files.find? (fun f => f.fieldName == "markup") with
  | some f => if f.name.isSome then some f.text else none
  | none => none

/-- The two response formatters selected by the upload options. -/
inductive Formatter
  | editor
  | groups
deriving DecidableEq, Repr

/-- Modelled from the spec: `helpers/format-filename-for-jqueryfileupload.js`
is not under `src/`; the spec only fixes the single-file response shape, so
the model passes the stored name through. -/
def formatNameModel (n : Option String) : String := n.getD ""

/-- The submission result: the groups shape carries the asset map, the
optional markup and the non-file form fields; the editor shape carries the
single-file list. -/
inductive UploadResult
  | groupsRes (assets : List (String × String)) (markup : Option String)
      (extra : List (String × String))
  | editorRes (files : List String)
deriving DecidableEq, Repr

/-- The asset map a caller can read off a result. -/
def assetsOf : UploadResult → List (String × String)
  | .groupsRes a _ _ => a
  | .editorRes _ => []

/-- Apply the selected formatter to the processed files, as `onEnd` does once
every write has succeeded. -/
def formatResult (fmt : Formatter) (files : List UpFile)
    (extra : List (String × String)) : UploadResult :=
  match fmt with
  | .groups => .groupsRes (buildAssets files) (markupOf files) extra
  | .editor =>
    .editorRes [formatNameModel ((files.find? (fun f => f.fieldName == "files[]")).bind
      (fun f => f.name))]

/-- The first rejection among the settled write outcomes; `Promise.all`
rejects with it. -/
def firstError : List (Except String Unit) → Option String
  | [] => none
  | .ok _ :: t => firstError t
  | .error e :: _ => some e

/-- The files object after formidable finished parsing: every part, mutated
by `onFile`. -/
def processedFiles (pfx : String) (parts : List UpFile) : List UpFile :=
  parts.map (fun f => (processOnFile pfx f).file)

/-- The write jobs pushed onto `uploads` while parsing. -/
def uploadJobs (pfx : String) (parts : List UpFile) : List UpFile :=
  parts.filterMap (fun f => (processOnFile pfx f).job)

/-- Embedding of `parseMultipart`'s `onEnd` (filemanager/index.js lines
112-120) as a function of the settled outcomes: a parse error rejects the
deferred; otherwise `Promise.all` over the write outcomes either rejects with
the first write error or resolves with the formatted result. -/
def parseMultipart (pfx : String) (fmt : Formatter) (parts : List UpFile)
    (writeResults : List (Except String Unit)) (parseErr : Option String)
    (extra : List (String × String)) : Except String UploadResult :=
  match parseErr with
  | some e => .error e
  | none =>
    match firstError writeResults with
    | some e => .error e
    | none => .ok (formatResult fmt (processedFiles pfx parts) extra)

/-- The parts kept by the asset map: nonzero size and a present name. -/
def keepPart (f : UpFile) : Bool := !(f.size == 0 || f.name.isNone)

/-! ### Claim C6: unknown MIME type and the stored-name format -/

/-- A concrete part whose declared MIME type has no table entry. -/
def fileUnknownMime : UpFile :=
  ⟨"images", some "photo.png", none, 10, "abc", "application/x-mystery", ""⟩

/-- A concrete png part and the job record `onFile` produces for it. -/
def filePngW : UpFile := ⟨"images", some "a.png", none, 3, "h1", "image/png", ""⟩

/-- The mutated record pushed for `filePngW`. -/
def filePngWJob : UpFile :=
  { filePngW with name := some "p-h1.png", originalName := some "a.png" }

/-- Two byte-identical uploads under different original names. -/
def fileDupA : UpFile := ⟨"images", some "Photo 1.png", none, 4, "hh", "image/png", ""⟩

/-- Second upload of the same bytes. -/
def fileDupB : UpFile := ⟨"images", some "another name.png", none, 4, "hh", "image/png", ""⟩

/-- Job record for the first duplicate. -/
def fileDupAJob : UpFile :=
  { fileDupA with name := some "p-hh.png", originalName := some "photo-1.png" }

/-- Job record for the second duplicate. -/
def fileDupBJob : UpFile :=
  { fileDupB with name := some "p-hh.png", originalName := some "another-name.png" }

/-- A zero-size part. -/
def fileZeroW : UpFile := ⟨"images", some "z.png", none, 0, "h0", "image/png", ""⟩

/-- A nameless part. -/
def fileNoNameW : UpFile := ⟨"images", none, none, 5, "h2", "image/png", ""⟩

/-- A part whose name slugs to the empty string. -/
def fileBadSlugW : UpFile := ⟨"images", some "???", none, 5, "h3", "image/png", ""⟩

/-! ## Export pipeline, reference extraction: `src/server/download.js` -/

/-- An element of the parsed document, carrying the three attributes the zip
handler reads through cheerio: the tag name, `src`, `background` and
`style`. -/
structure Element where
  tag : String
  src : Option String
  background : Option String
  style : Option String
deriving DecidableEq, Repr

/-- Embedding of `isHttpUrl` (download.js lines 21-23): the regular
expression `^http` merely tests the leading characters. -/
def isHttpUrl (uri : String) : Bool := leadsWith "http".data uri.data

/-- Embedding of lodash `_.uniq`: keep the first occurrence of each value,
preserving order. -/
def jsUniq (l : List String) : List String :=
  l.foldl (fun acc u => if u ∈ acc then acc else acc ++ [u]) []

/-- The `src` attributes of the `img` elements, in document order. -/
def imgSrcs (d : List Element) : List String :=
  d.filterMap (fun e => if e.tag = "img" then e.src else none)

/-- `imgUrls` of download.js line 100. -/
def imgUrls (d : List Element) : List String := jsUniq ((imgSrcs d).filter isHttpUrl)

/-- The `background` attributes present on any element. -/
def bgAttrs (d : List Element) : List String := d.filterMap (fun e => e.background)

/-- `bgUrls` of download.js line 102. -/
def bgUrls (d : List Element) : List String := jsUniq ((bgAttrs d).filter isHttpUrl)

/-- The characters after the first occurrence of `pat`, if any. -/
def afterFirst (pat : List Char) : List Char → Option (List Char)
  | [] => if pat.isEmpty then some [] else none
  | l@(_ :: t) => if leadsWith pat l then some (l.drop pat.length) else afterFirst pat t

/-- Embedding of the style regular expression of download.js line 108: after
the first occurrence of `url(` an optional single quote is skipped and the
capture runs to the first closing parenthesis or quote; an empty capture is
falsy and yields nothing. -/
def styleUrlOf (style : String) : Option String :=
  match afterFirst "url(".data style.data with
  | none => none
  | some rest =>
    let rest2 := match rest with
      | '\'' :: r => r
      | r => r
    let cap := rest2.takeWhile (fun c => !(c == ')') && !(c == '\''))
    if cap.isEmpty then none else some ⟨cap⟩

/-- One step of the `$style.each` loop of download.js lines 105-114: push the
extracted reference when it passes the http test and is not yet present. -/
def styleStep (acc : List String) (e : Element) : List String :=
  match e.style with
  | none => acc
  | some s =>
    match styleUrlOf s with
    | none => acc
    | some u => if isHttpUrl u = true ∧ u ∉ acc then acc ++ [u] else acc

/-- `styleUrls` of download.js lines 104-114. -/
def styleUrls (d : List Element) : List String := d.foldl styleStep []

/-- `allImages` of download.js line 115: the deduplicated concatenation of
the three reference lists. -/
def allImages (d : List Element) : List String :=
  jsUniq (imgUrls d ++ bgUrls d ++ styleUrls d)

/-- A reference to `u` in one of the three extracted shapes. -/
def referencesUrl (d : List Element) (u : String) : Prop :=
  (∃ e ∈ d, e.tag = "img" ∧ e.src = some u) ∨
  (∃ e ∈ d, e.background = some u) ∨
  (∃ e ∈ d, ∃ s, e.style = some s ∧ styleUrlOf s = some u)

/-- A document whose only reference is a relative path that happens to begin
with the characters http. -/
def docRel : List Element := [⟨"img", some "httpz.png", none, none⟩]

/-- The spec's notion of an absolute HTTP(S) URL, following its words: a
reference that begins with an HTTP scheme. -/
def specAbsoluteHttpUrl (u : String) : Bool :=
  leadsWith "http://".data u.data || leadsWith "https://".data u.data

/-! ## Export pipeline, archive names: `getImageName` (download.js 181-188) -/

/-- Scheme splitting of node's legacy `url.parse`: when the string starts
with letters, digits or plus, minus, dot followed by a colon, return the
remainder after the colon and report that a scheme was present. -/
def splitScheme (cs : List Char) : Bool × List Char :=
  match cs with
  | [] => (false, [])
  | c :: t =>
    if c.isAlpha then
      let run := t.takeWhile (fun d => d.isAlpha || d.isDigit || d == '+' || d == '-' || d == '.')
      let rest := t.drop run.length
      match rest with
      | ':' :: r => (true, r)
      | _ => (false, cs)
    else (false, cs)

/-- Embedding of legacy `url.parse(...).pathname`: after a scheme followed by
two slashes the authority runs to the next slash, question mark or hash and
the pathname is the slash-led remainder up to the query or fragment (absent
when the authority is followed by no slash); without a scheme-and-slashes
head the pathname is everything up to the query or fragment (absent when
empty). -/
def pathname (u : String) : Option String :=
  let sc := splitScheme u.data
  if sc.1 && leadsWith "//".data sc.2 then
    let afterAuth := (sc.2.drop 2).dropWhile (fun c => !(c == '/' || c == '?' || c == '#'))
    match afterAuth with
    | '/' :: _ => some ⟨afterAuth.takeWhile (fun c => !(c == '?' || c == '#'))⟩
    | _ => none
  else
    let p := sc.2.takeWhile (fun c => !(c == '?' || c == '#'))
    if p.isEmpty then none else some ⟨p⟩

/-- The whitespace class relevant to the replacements in `getImageName`. -/
def isJsWs (c : Char) : Bool := c == ' ' || c == '\t' || c == '\n' || c == '\r'

/-- Trim surrounding whitespace. -/
def trimWs (cs : List Char) : List Char :=
  ((cs.dropWhile isJsWs).reverse.dropWhile isJsWs).reverse

/-- Embedding of `getImageName` (download.js lines 181-188): the pathname of
the URL with slashes turned to spaces, trimmed, and remaining whitespace
turned to hyphens; `none` models the crash on a null pathname. -/
def getImageName (imageUrl : String) : Option String :=
  (pathname imageUrl).map (fun p =>
    ⟨(trimWs (p.data.map (fun c => if c == '/' then ' ' else c))).map
      (fun c => if isJsWs c then '-' else c)⟩)

/-- The archive images folder of download.js line 70. -/
def imagesFolder : String := "images"

/-- The relative URL substituted into the html (download.js line 124). -/
def relativeUrlOf (u : String) : Option String :=
  (getImageName u).map (fun n => imagesFolder ++ "/" ++ n)

/-- The archive entry path used when appending a fetched image (download.js
lines 156-159: entry name plus the name/images/ prefix). -/
def archiveImagePath (nm u : String) : Option String :=
  (getImageName u).map (fun n => nm ++ "/" ++ imagesFolder ++ "/" ++ n)

/-! ## Export pipeline, html rewriting: download.js lines 121-127 -/

/-- Fuel-indexed scan of JavaScript global string replacement with an escaped
literal pattern: at each position a nonempty matching pattern is consumed and
replaced, otherwise one character is kept; matches do not overlap and the
scan is left to right.  The fuel is always instantiated with the length of
the list, which the scan never exceeds. -/
def replaceGo (pat rep : List Char) : Nat → List Char → List Char
  | _, [] => []
  | 0, l => l
  | fuel+1, l@(c :: t) =>
    if pat ≠ [] ∧ leadsWith pat l = true then rep ++ replaceGo pat rep fuel (l.drop pat.length)
    else c :: replaceGo pat rep fuel t

/-- Global replacement on character lists. -/
def replaceList (pat rep l : List Char) : List Char := replaceGo pat rep l.length l

/-- Embedding of `html.replace(new RegExp(escapedUrl, g-flag), relativeUrl)`
of download.js line 126: global, exact-string, left-to-right substitution. -/
def jsReplaceAll (s pat rep : String) : String := ⟨replaceList pat.data rep.data s.data⟩

/-- The `allImages.forEach` rewrite loop of download.js lines 122-127: each
manifest entry is globally substituted by its `images/` relative URL; `none`
models the crash when an entry has no pathname. -/
def zipRewrite (urls : List String) (html : String) : Option String :=
  match urls with
  | [] => some html
  | u :: t =>
    match relativeUrlOf u with
    | none => none
    | some r => zipRewrite t (jsReplaceAll html u r)

/-- Render one attribute of an element. -/
def renderAttr (nm : String) (v : Option String) : String :=
  match v with
  | none => ""
  | some s => " " ++ nm ++ "=\"" ++ s ++ "\""

/-- Render one element the way the raw html of the export request carries
it. -/
def renderElement (e : Element) : String :=
  "<" ++ e.tag ++ renderAttr "src" e.src ++ renderAttr "background" e.background ++
    renderAttr "style" e.style ++ ">"

/-- The raw html string corresponding to a document. -/
def renderDoc (d : List Element) : String := String.join (d.map renderElement)

/-- An export request on which a later substitution re-creates an earlier
manifest URL: the style value is not extracted (no url parenthesis shape) but
contains the second manifest URL preceded by the first URL's host prefix. -/
def docC5 : List Element :=
  [⟨"img", some "http://a/images/b", none, none⟩,
   ⟨"img", some "http://x/b", none, none⟩,
   ⟨"div", none, none, some "http://a/http://x/b"⟩]

/-- Fuel-indexed splitter aligned with `replaceGo`: the pattern-free gap
pieces between the non-overlapping left-to-right matches. -/
def jsSplitGo (pat : List Char) : Nat → List Char → List (List Char)
  | _, [] => [[]]
  | 0, l => [l]
  | fuel+1, l@(c :: t) =>
    if pat ≠ [] ∧ leadsWith pat l = true then [] :: jsSplitGo pat fuel (l.drop pat.length)
    else
      match jsSplitGo pat fuel t with
      | [] => [[c]]
      | p :: ps => (c :: p) :: ps

/-- The gap pieces of the global replacement scan. -/
def jsSplit (pat l : List Char) : List (List Char) := jsSplitGo pat l.length l

/-! ## The shared sanitize routine: `secureHtml` (download.js lines 25-34) -/

/-- Printable ASCII, the class of characters `he.encode` leaves alone under
`allowUnsafeSymbols` (which exempts the six otherwise-escaped symbols). -/
def printableAscii (c : Char) : Bool :=
  decide (0x20 ≤ c.toNat) && decide (c.toNat ≤ 0x7E)

/-- One lowercase hexadecimal digit. -/
def hexChar (k : Nat) : Char := "0123456789abcdef".data.getD (k % 16) '0'

/-- Fuel-indexed hexadecimal digits of a number, most significant first. -/
def hexDigitsGo : Nat → Nat → List Char
  | 0, n => [hexChar (n % 16)]
  | fuel+1, n => if n < 16 then [hexChar n] else hexDigitsGo fuel (n / 16) ++ [hexChar (n % 16)]

/-- Hexadecimal digits of a number. -/
def hexDigits (n : Nat) : List Char := hexDigitsGo n n

/-- A few of the named references `useNamedReferences` selects; every other
encoded symbol falls back to a hexadecimal reference. -/
def namedRef (c : Char) : Option (List Char) :=
  if c == '©' then some "&copy;".data
  else if c == 'é' then some "&eacute;".data
  else if c == ' ' then some "&nbsp;".data
  else none

/-- Embedding of `he.encode` with `useNamedReferences` and
`allowUnsafeSymbols` on one character: printable ASCII (the unsafe symbols
included) passes through, anything else becomes a named or hexadecimal
character reference. -/
def heEncodeChar (c : Char) : List Char :=
  if printableAscii c then [c]
  else
    match namedRef c with
    | some s => s
    | none => "&#x".data ++ hexDigits c.toNat ++ [';']

/-- The character-wise entity encoder over a whole string. -/
def heEncode (s : String) : String := ⟨s.data.flatMap heEncodeChar⟩

/-- The tab-to-space replacement of download.js line 28. -/
def tabToSpace (s : String) : String :=
  ⟨s.data.map (fun c => if c == '\t' then ' ' else c)⟩

/-- Embedding of `secureHtml` (download.js lines 25-34): tabs become spaces,
then the html is entity-encoded with named references, unsafe symbols
allowed. -/
def secureHtml (html : String) : String := heEncode (tabToSpace html)

/-! ### Claim C8: the sanitizer -/

/-- The raw symbols `he` would escape without `allowUnsafeSymbols`. -/
def unsafeChars : List Char := ['&', '<', '>', '"', '\'']

/-! ## Export pipeline, fetch and finalize coordination (download.js 129-173)

The per-image requests are deferreds resolved by the `response` and `error`
handlers of download.js lines 150-169; `h.defer` (`server/helpers/create-promise.js`)
is not under `src/` and is modelled from the spec as a thenable deferred that
`Promise.all` awaits.  Each request eventually fires exactly one outcome:
either an http response with some status code, or a transport error.  The
handler resolves the deferred on a 200 response (appending the image) and on
a transport error (appending nothing); on a response with any other status it
returns without touching the deferred.  The `await Promise.all` continuation
runs `archive.finalize()` only once every deferred is resolved, and `res.end()`
runs in the archive end handler only after finalization. -/

/-- The outcome a request eventually delivers. -/
inductive FetchOutcome
  | response (status : Nat)
  | transportError
deriving DecidableEq, Repr

/-- Whether the handlers resolve the deferred for this outcome (download.js
lines 154-167): yes for a 200 response and for a transport error, no for any
other status, whose handler returns before `dfd.resolve()`. -/
def settles : FetchOutcome → Bool
  | .response s => s == 200
  | .transportError => true

/-- Whether the outcome appends its image to the archive: only a 200
response does. -/
def appendsImage : FetchOutcome → Bool
  | .response s => s == 200
  | .transportError => false

/-- An entry written to the archive stream. -/
inductive ArchiveEntry
  | htmlEntry
  | imageEntry (i : Nat)
deriving DecidableEq, Repr

/-- The coordination state of one export request: which request indices have
delivered their outcome, the entries appended to the archive stream so far,
whether `archive.finalize()` has run and whether `res.end()` has run. -/
structure ZipState where
  delivered : List Nat
  archive : List ArchiveEntry
  finalized : Bool
  ended : Bool
deriving DecidableEq, Repr

/-- The state when the requests are issued: the html entry is already
appended (download.js line 144), nothing delivered, nothing finalized. -/
def zipInit : ZipState :=
  ⟨[], [ArchiveEntry.htmlEntry], false, false⟩

/-- Delivery of outcome `i`: mark it delivered and append its image when the
status is 200. -/
def deliverState (outs : List FetchOutcome) (i : Nat) (s : ZipState) : ZipState :=
  { s with delivered := i :: s.delivered,
           archive := s.archive ++
             (if appendsImage (outs.getD i .transportError) then [ArchiveEntry.imageEntry i]
              else []) }

/-- Index `i` has settled: its outcome was delivered and the handler resolved
the deferred. -/
def settledIdx (outs : List FetchOutcome) (s : ZipState) (i : Nat) : Prop :=
  i ∈ s.delivered ∧ settles (outs.getD i .transportError) = true

/-- One event of the export coordination: an outcome delivery by the event
loop, the `await Promise.all` continuation running `finalize` (enabled only
when every deferred has resolved), or the archive end handler ending the
response (enabled only after finalization). -/
inductive ZipStep (outs : List FetchOutcome) : ZipState → ZipState → Prop
  | deliver (i : Nat) (s : ZipState) (h1 : i < outs.length) (h2 : i ∉ s.delivered) :
      ZipStep outs s (deliverState outs i s)
  | finalize (s : ZipState) (h1 : ∀ i, i < outs.length → settledIdx outs s i)
      (h2 : s.finalized = false) :
      ZipStep outs s { s with finalized := true }
  | endResponse (s : ZipState) (h1 : s.finalized = true) (h2 : s.ended = false) :
      ZipStep outs s { s with ended := true }

/-- The states an export request can reach from the issuing point. -/
inductive ZipReach (outs : List FetchOutcome) : ZipState → Prop
  | init : ZipReach outs zipInit
  | step {s s' : ZipState} : ZipReach outs s → ZipStep outs s s' → ZipReach outs s'

/-- The outcome list of the C2 witness run: one fetch answering 200. -/
def singleOk : List FetchOutcome := [FetchOutcome.response 200]

/-- The three-step run of a one-image export whose fetch returns 200. -/
def zipW1 : ZipState := ⟨[0], [ArchiveEntry.htmlEntry, ArchiveEntry.imageEntry 0], false, false⟩

/-- The run after finalize. -/
def zipW2 : ZipState := ⟨[0], [ArchiveEntry.htmlEntry, ArchiveEntry.imageEntry 0], true, false⟩

/-- The run after the response ends. -/
def zipW3 : ZipState := ⟨[0], [ArchiveEntry.htmlEntry, ArchiveEntry.imageEntry 0], true, true⟩

/-! ### Claim C1: a non-200 response never settles -/

/-- The failing input: three manifest entries whose fetches return the
statuses 200, 500 and 200. -/
def outs500 : List FetchOutcome :=
  [FetchOutcome.response 200, FetchOutcome.response 500, FetchOutcome.response 200]

/-! ### Helper lemmas for the upload pipeline -/

/-- When no outcome is an error, every outcome is a success. -/
theorem firstError_eq_none_iff (ws : List (Except String Unit)) :
    firstError ws = none ↔ ∀ w ∈ ws, w = .ok () := by
  induction ws with
  | nil => simp [firstError]
  | cons w t ih =>
    cases w with
    | ok u =>
      cases u
      simp [firstError, ih]
    | error e => simp [firstError]

/-- Whenever `onFile` pushes a write job, the job's stored name is exactly
`prefix-hash.ext`, where `ext` is the MIME table entry or the literal
`false`. -/
theorem processOnFile_job_name (pfx : String) (f g : UpFile)
    (h : (processOnFile pfx f).job = some g) :
    g.name = some (pfx ++ "-" ++ f.hash ++ "." ++ ((mimeExtension f.type).getD "false")) := by
  unfold processOnFile at h
  split at h
  · simp at h
  · split at h
    · simp at h
    · dsimp only at h
      split at h
      · simp at h
      · simp only [Option.some.injEq] at h
        subst h
        rfl

/-- Dropping a zero-size or nameless file leaves the asset object untouched. -/
theorem imageToFields_drop (acc : List (String × String)) (f : UpFile)
    (h : f.size = 0 ∨ f.name = none) : imageToFields acc f = acc := by
  rcases h with h | h
  · simp [imageToFields, h]
  · unfold imageToFields
    split
    · rfl
    · rw [h]

/-- Folding the asset object over a file list ignores dropped parts. -/
theorem foldl_imageToFields_filter (l : List UpFile) (acc : List (String × String)) :
    (l.filter keepPart).foldl imageToFields acc = l.foldl imageToFields acc := by
  induction l generalizing acc with
  | nil => rfl
  | cons f t ih =>
    by_cases hk : keepPart f = true
    · rw [List.filter_cons_of_pos hk]
      simp only [List.foldl_cons]
      exact ih _
    · rw [List.filter_cons_of_neg (by simpa using hk)]
      simp only [List.foldl_cons]
      have hd : f.size = 0 ∨ f.name = none := by
        by_cases hz : f.size = 0
        · exact Or.inl hz
        · refine Or.inr ?_
          simp only [keepPart, Option.isNone_iff_eq_none] at hk
          simpa [hz] using hk
      rw [imageToFields_drop acc f hd]
      exact ih acc

/-- The two part filters commute. -/
theorem filter_comm_parts (files : List UpFile) :
    (files.filter keepPart).filter (fun f => f.fieldName == "images") =
    (files.filter (fun f => f.fieldName == "images")).filter keepPart := by
  rw [List.filter_filter, List.filter_filter]
  apply List.filter_congr
  intro f _
  exact Bool.and_comm _ _

/-- The asset map is unchanged by first filtering out dropped parts. -/
theorem buildAssets_filter (files : List UpFile) :
    buildAssets (files.filter keepPart) = buildAssets files := by
  unfold buildAssets
  rw [filter_comm_parts, foldl_imageToFields_filter]

/-! ### Claim C3: fail-fast upload submission -/

/-- C3: the submission resolves only once every write outcome is a success;
any failing write makes the whole submission fail with the first error, and a
failed submission exposes no result value, hence no asset map. -/
theorem parseMultipart_failfast (pfx : String) (fmt : Formatter) (parts : List UpFile)
    (ws : List (Except String Unit)) (extra : List (String × String)) :
    (∀ e, firstError ws = some e →
      parseMultipart pfx fmt parts ws none extra = .error e ∧
      ∀ r, parseMultipart pfx fmt parts ws none extra ≠ .ok r) ∧
    (∀ r, parseMultipart pfx fmt parts ws none extra = .ok r → ∀ w ∈ ws, w = .ok ()) := by
  constructor
  · intro e he
    constructor
    · simp [parseMultipart, he]
    · intro r
      simp [parseMultipart, he]
  · intro r hr w hw
    unfold parseMultipart at hr
    cases hfe : firstError ws with
    | some e => rw [hfe] at hr; simp at hr
    | none => exact (firstError_eq_none_iff ws).mp hfe w hw

/-- Witness for C3 at a concrete submission with one failing write. -/
theorem parseMultipart_failfast_witness :
    parseMultipart "p" .groups [] [.ok (), .error "disk full", .error "other"] none [] =
      .error "disk full" :=
  ((parseMultipart_failfast "p" .groups [] [.ok (), .error "disk full", .error "other"] []).1
    "disk full" rfl).1

/-- C6 counterexample: for a MIME type absent from the table the derivation
does not fail at all; it silently produces a name with the bogus extension
`false` and pushes the write job. -/
theorem storedName_unknownMime_counterexample :
    ((processOnFile "p" fileUnknownMime).job.bind (fun g => g.name)) = some "p-abc.false" ∧
    (processOnFile "p" fileUnknownMime).warned = false := by
  constructor
  · rfl
  · rfl

/-- C6 (amended): whenever a write job is produced its stored name is exactly
prefix-hash.ext when the MIME table has an entry, and prefix-hash.false when
it does not; no error is raised in either case. -/
theorem storedName_format (pfx : String) (f g : UpFile)
    (h : (processOnFile pfx f).job = some g) :
    g.name = some (pfx ++ "-" ++ f.hash ++ "." ++ ((mimeExtension f.type).getD "false")) ∧
    (∀ e, mimeExtension f.type = some e →
      g.name = some (pfx ++ "-" ++ f.hash ++ "." ++ e)) := by
  have hn := processOnFile_job_name pfx f g h
  refine ⟨hn, fun e he => ?_⟩
  rw [hn, he]
  rfl

/-- Witness for the amended C6 at a known MIME type. -/
theorem storedName_format_witness :
    filePngWJob.name = some ("p" ++ "-" ++ "h1" ++ "." ++ "png") :=
  (storedName_format "p" filePngW filePngWJob (by decide)).2 "png" rfl

/-! ### Claim C9: deterministic stored names -/

/-- C9: stored-name derivation depends only on the option prefix, the content
hash and the MIME type: two parts with equal hash and type that both produce
write jobs receive identical stored names, whatever their original file names
or sizes. -/
theorem storedName_deterministic (pfx : String) (f1 f2 g1 g2 : UpFile)
    (hh : f1.hash = f2.hash) (ht : f1.type = f2.type)
    (h1 : (processOnFile pfx f1).job = some g1)
    (h2 : (processOnFile pfx f2).job = some g2) :
    g1.name = g2.name := by
  rw [processOnFile_job_name pfx f1 g1 h1, processOnFile_job_name pfx f2 g2 h2, hh, ht]

/-- Witness for C9 at two concrete duplicates. -/
theorem storedName_deterministic_witness : fileDupAJob.name = fileDupBJob.name :=
  storedName_deterministic "p" fileDupA fileDupB fileDupAJob fileDupBJob rfl rfl
    (by decide) (by decide)

/-! ### Claim C7: dropped parts -/

/-- C7: zero-size parts and nameless parts are never written to storage and
contribute no entry to the asset map; a named part whose filename slugs to the
empty string is skipped with a warning; and warnings never fail the
submission, which still resolves when every issued write succeeds. -/
theorem upload_drops :
    (∀ pfx f, f.size = 0 → (processOnFile pfx f).job = none) ∧
    (∀ pfx f, f.name = none → (processOnFile pfx f).job = none) ∧
    (∀ files : List UpFile, buildAssets (files.filter keepPart) = buildAssets files) ∧
    (∀ pfx f n, f.size ≠ 0 → f.fieldName ≠ "markup" → f.name = some n →
      jsReplaceFirst (slugFilename n) (extname (slugFilename n)) "" = "" →
      (processOnFile pfx f).job = none ∧ (processOnFile pfx f).warned = true) ∧
    (∀ pfx fmt (parts : List UpFile) ws (extra : List (String × String)),
      firstError ws = none →
      ∃ r, parseMultipart pfx fmt parts ws none extra = Except.ok r) := by
  refine ⟨?_, ?_, ?_, ?_, ?_⟩
  · intro pfx f h
    simp [processOnFile, h]
  · intro pfx f h
    unfold processOnFile
    split
    · rfl
    · split
      · rfl
      · rw [h]
        rfl
  · exact buildAssets_filter
  · intro pfx f n hs hm hn hslug
    have hres : processOnFile pfx f = ⟨f, none, true⟩ := by
      unfold processOnFile
      dsimp only
      rw [hn]
      rw [if_neg (by simpa using hs), if_neg (by simpa using hm)]
      rw [if_pos ?_]
      show (jsReplaceFirst (slugFilename ((some n).getD ""))
        (extname (slugFilename ((some n).getD ""))) "" == "") = true
      rw [show (some n).getD "" = n from rfl, hslug]
      rfl
    rw [hres]
    exact ⟨rfl, rfl⟩
  · intro pfx fmt parts ws extra h
    refine ⟨formatResult fmt (processedFiles pfx parts) extra, ?_⟩
    simp [parseMultipart, h]

/-- Witness for C7 at concrete dropped parts. -/
theorem upload_drops_witness :
    (processOnFile "p" fileZeroW).job = none ∧
    (processOnFile "p" fileNoNameW).job = none ∧
    buildAssets ([fileZeroW, fileNoNameW].filter keepPart) =
      buildAssets [fileZeroW, fileNoNameW] ∧
    (processOnFile "p" fileBadSlugW).warned = true ∧
    ∃ r, parseMultipart "p" Formatter.groups [fileZeroW] [] none [] = Except.ok r :=
  ⟨upload_drops.1 "p" fileZeroW rfl,
   upload_drops.2.1 "p" fileNoNameW rfl,
   upload_drops.2.2.1 [fileZeroW, fileNoNameW],
   (upload_drops.2.2.2.1 "p" fileBadSlugW "???" (by decide) (by decide) rfl (by decide)).2,
   upload_drops.2.2.2.2 "p" Formatter.groups [fileZeroW] [] [] rfl⟩

/-! ### Helper lemmas for the manifest -/

/-- Membership in the lodash-style dedup fold. -/
theorem mem_foldl_jsUniq (l : List String) (acc : List String) (x : String) :
    x ∈ l.foldl (fun acc u => if u ∈ acc then acc else acc ++ [u]) acc ↔
      x ∈ acc ∨ x ∈ l := by
  induction l generalizing acc with
  | nil => simp
  | cons u t ih =>
    simp only [List.foldl_cons]
    rw [ih]
    by_cases hu : u ∈ acc
    · rw [if_pos hu]
      simp only [List.mem_cons]
      constructor
      · rintro (h | h)
        · exact Or.inl h
        · exact Or.inr (Or.inr h)
      · rintro (h | h | h)
        · exact Or.inl h
        · exact Or.inl (h ▸ hu)
        · exact Or.inr h
    · rw [if_neg hu]
      simp only [List.mem_append, List.mem_singleton, List.mem_cons]
      tauto

/-- `jsUniq` preserves membership. -/
theorem mem_jsUniq (l : List String) (x : String) : x ∈ jsUniq l ↔ x ∈ l := by
  unfold jsUniq
  rw [mem_foldl_jsUniq]
  simp

/-- The dedup fold keeps its accumulator duplicate-free. -/
theorem nodup_foldl_jsUniq (l : List String) (acc : List String) (h : acc.Nodup) :
    (l.foldl (fun acc u => if u ∈ acc then acc else acc ++ [u]) acc).Nodup := by
  induction l generalizing acc with
  | nil => exact h
  | cons u t ih =>
    simp only [List.foldl_cons]
    apply ih
    by_cases hu : u ∈ acc
    · rw [if_pos hu]
      exact h
    · rw [if_neg hu]
      refine List.Nodup.append h (List.nodup_singleton u) ?_
      intro a ha hmem
      rw [List.mem_singleton] at hmem
      exact hu (hmem ▸ ha)

/-- `jsUniq` output has no duplicates. -/
theorem nodup_jsUniq (l : List String) : (jsUniq l).Nodup :=
  nodup_foldl_jsUniq l [] List.nodup_nil

/-- The conditional source attribute is `some u` exactly for img tags. -/
theorem if_src_eq (e : Element) (u : String) :
    (if e.tag = "img" then e.src else none) = some u ↔ e.tag = "img" ∧ e.src = some u := by
  split
  · rename_i h
    simp [h]
  · rename_i h
    simp [h]

/-- Membership in the img reference list. -/
theorem mem_imgUrls (d : List Element) (u : String) :
    u ∈ imgUrls d ↔ (∃ e ∈ d, e.tag = "img" ∧ e.src = some u) ∧ isHttpUrl u = true := by
  unfold imgUrls imgSrcs
  rw [mem_jsUniq, List.mem_filter]
  simp only [List.mem_filterMap, if_src_eq]

/-- Membership in the background reference list. -/
theorem mem_bgUrls (d : List Element) (u : String) :
    u ∈ bgUrls d ↔ (∃ e ∈ d, e.background = some u) ∧ isHttpUrl u = true := by
  unfold bgUrls bgAttrs
  rw [mem_jsUniq, List.mem_filter]
  simp only [List.mem_filterMap]

/-- Membership after one step of the style loop. -/
theorem mem_styleStep (acc : List String) (e : Element) (x : String) :
    x ∈ styleStep acc e ↔
      x ∈ acc ∨ ((∃ s, e.style = some s ∧ styleUrlOf s = some x) ∧ isHttpUrl x = true) := by
  cases hst : e.style with
  | none => simp [styleStep, hst]
  | some s =>
    cases hso : styleUrlOf s with
    | none => simp [styleStep, hst, hso]
    | some u =>
      have hred : styleStep acc e =
          if isHttpUrl u = true ∧ u ∉ acc then acc ++ [u] else acc := by
        unfold styleStep
        rw [hst]
        show (match styleUrlOf s with
          | none => acc
          | some u => if isHttpUrl u = true ∧ u ∉ acc then acc ++ [u] else acc) = _
        rw [hso]
      rw [hred]
      by_cases hc : isHttpUrl u = true ∧ u ∉ acc
      · rw [if_pos hc]
        simp only [List.mem_append, List.mem_singleton, hst, Option.some.injEq]
        constructor
        · rintro (h | h)
          · exact Or.inl h
          · exact Or.inr ⟨⟨s, rfl, by rw [hso, h]⟩, h ▸ hc.1⟩
        · rintro (h | ⟨⟨s', hs', hso'⟩, hh⟩)
          · exact Or.inl h
          · right
            rw [← hs'] at hso'
            rw [hso] at hso'
            exact (Option.some.injEq _ _ ▸ hso').symm
      · rw [if_neg hc]
        constructor
        · exact Or.inl
        · rintro (h | ⟨⟨s', hs', hso'⟩, hh⟩)
          · exact h
          · have hss : s' = s := by
              injection hs' with h
              exact h.symm
            rw [hss, hso] at hso'
            have hxu : x = u := (Option.some.injEq _ _ ▸ hso').symm
            subst hxu
            rcases not_and_or.mp hc with hbad | hmem
            · exact absurd hh hbad
            · exact not_not.mp hmem

/-- Membership in the style fold. -/
theorem mem_foldl_styleStep (d : List Element) (acc : List String) (x : String) :
    x ∈ d.foldl styleStep acc ↔
      x ∈ acc ∨
        ((∃ e ∈ d, ∃ s, e.style = some s ∧ styleUrlOf s = some x) ∧ isHttpUrl x = true) := by
  induction d generalizing acc with
  | nil => simp
  | cons e t ih =>
    simp only [List.foldl_cons]
    rw [ih]
    rw [mem_styleStep]
    simp only [List.mem_cons]
    constructor
    · rintro ((h | ⟨⟨s, hs, hso⟩, hh⟩) | ⟨⟨e', he', s, hs, hso⟩, hh⟩)
      · exact Or.inl h
      · exact Or.inr ⟨⟨e, Or.inl rfl, s, hs, hso⟩, hh⟩
      · exact Or.inr ⟨⟨e', Or.inr he', s, hs, hso⟩, hh⟩
    · rintro (h | ⟨⟨e', he' | he', s, hs, hso⟩, hh⟩)
      · exact Or.inl (Or.inl h)
      · subst he'
        exact Or.inl (Or.inr ⟨⟨s, hs, hso⟩, hh⟩)
      · exact Or.inr ⟨⟨e', he', s, hs, hso⟩, hh⟩

/-- Membership in the style reference list. -/
theorem mem_styleUrls (d : List Element) (x : String) :
    x ∈ styleUrls d ↔
      (∃ e ∈ d, ∃ s, e.style = some s ∧ styleUrlOf s = some x) ∧ isHttpUrl x = true := by
  unfold styleUrls
  rw [mem_foldl_styleStep]
  simp

/-! ### Claim C4: the export manifest -/

/-- C4 (amended): the manifest is exactly the set of references drawn from
the three shapes whose text begins with the four characters http, each
appearing at most once; references not beginning with http, in particular
ordinary relative paths, never appear. -/
theorem allImages_spec (d : List Element) :
    (allImages d).Nodup ∧
    ∀ u, u ∈ allImages d ↔ (referencesUrl d u ∧ isHttpUrl u = true) := by
  refine ⟨nodup_jsUniq _, fun u => ?_⟩
  unfold allImages referencesUrl
  rw [mem_jsUniq]
  simp only [List.mem_append, mem_imgUrls, mem_bgUrls, mem_styleUrls]
  constructor
  · intro h
    rcases h with (h1 | h2) | h3
    · exact ⟨Or.inl h1.1, h1.2⟩
    · exact ⟨Or.inr (Or.inl h2.1), h2.2⟩
    · exact ⟨Or.inr (Or.inr h3.1), h3.2⟩
  · intro h
    rcases h with ⟨h1 | h2 | h3, hh⟩
    · exact Or.inl (Or.inl ⟨h1, hh⟩)
    · exact Or.inl (Or.inr ⟨h2, hh⟩)
    · exact Or.inr ⟨h3, hh⟩

/-- C4 counterexample: the relative reference httpz.png is not an absolute
HTTP(S) URL, yet the manifest built from `docRel` contains it, because the
code only tests the four leading characters. -/
theorem allImages_relative_counterexample :
    allImages docRel = ["httpz.png"] ∧ specAbsoluteHttpUrl "httpz.png" = false := by
  constructor
  · rfl
  · rfl

/-- C10: the archive image name is a function of the URL's path component
alone, and both the html substitution text and the archive entry path are
built from that name, so two URLs differing only in scheme, host, port or
query collapse to the same archive-relative path, as the two concrete
evaluations show. -/
theorem getImageName_pathOnly :
    (∀ u1 u2, pathname u1 = pathname u2 →
      getImageName u1 = getImageName u2 ∧ relativeUrlOf u1 = relativeUrlOf u2 ∧
      ∀ nm, archiveImagePath nm u1 = archiveImagePath nm u2) ∧
    getImageName "http://a.com:8080/assets/img/pic.png?v=2" = some "assets-img-pic.png" ∧
    getImageName "https://cdn.example.org/assets/img/pic.png" = some "assets-img-pic.png" ∧
    relativeUrlOf "http://a.com:8080/assets/img/pic.png?v=2" =
      relativeUrlOf "https://cdn.example.org/assets/img/pic.png" := by
  refine ⟨?_, rfl, rfl, rfl⟩
  intro u1 u2 h
  unfold relativeUrlOf archiveImagePath getImageName
  rw [h]
  exact ⟨rfl, rfl, fun nm => rfl⟩

/-- Witness for C10 at two URLs sharing only the path. -/
theorem getImageName_pathOnly_witness :
    getImageName "http://one.example/x/y.png" = getImageName "https://two.example:9/x/y.png" :=
  (getImageName_pathOnly.1 "http://one.example/x/y.png" "https://two.example:9/x/y.png"
    (by decide)).1

/-- C5 counterexample: rewriting the export request `docC5` terminates with
an html string that still contains the originally-absolute manifest URL
http://a/images/b — substituting the second manifest entry inside the style
text re-created the first one — so after rewriting an originally-absolute
manifest URL remains and a non-manifest substring was altered. -/
theorem zipRewrite_counterexample :
    "http://a/images/b" ∈ allImages docC5 ∧
    specAbsoluteHttpUrl "http://a/images/b" = true ∧
    zipRewrite (allImages docC5) (renderDoc docC5) =
      some "<img src=\"images/images-b\"><img src=\"images/b\"><div style=\"http://a/images/b\">" ∧
    hasSub "http://a/images/b".data
      "<img src=\"images/images-b\"><img src=\"images/b\"><div style=\"http://a/images/b\">".data
      = true := by
  refine ⟨by decide, rfl, by decide, by decide⟩

/-- A character-list prefix test succeeds exactly on prefixes. -/
theorem leadsWith_iff (pat l : List Char) :
    leadsWith pat l = true ↔ ∃ r, l = pat ++ r := by
  induction pat generalizing l with
  | nil =>
    simp [leadsWith]
  | cons a as ih =>
    cases l with
    | nil =>
      simp [leadsWith]
    | cons b bs =>
      simp only [leadsWith, Bool.and_eq_true, beq_iff_eq, ih]
      constructor
      · rintro ⟨hab, r, hr⟩
        exact ⟨r, by rw [hab, hr]; rfl⟩
      · rintro ⟨r, hr⟩
        simp only [List.cons_append, List.cons.injEq] at hr
        exact ⟨hr.1.symm, r, hr.2⟩

/-- A substring test succeeds exactly on occurrences. -/
theorem hasSub_iff (pat l : List Char) :
    hasSub pat l = true ↔ ∃ s1 s2, l = s1 ++ pat ++ s2 := by
  induction l with
  | nil =>
    simp only [hasSub, leadsWith_iff]
    constructor
    · rintro ⟨r, hr⟩
      exact ⟨[], r, hr⟩
    · rintro ⟨s1, s2, h⟩
      cases s1 with
      | nil => exact ⟨s2, h⟩
      | cons a as => simp at h
  | cons c t ih =>
    simp only [hasSub, Bool.or_eq_true, leadsWith_iff, ih]
    constructor
    · rintro (⟨r, hr⟩ | ⟨s1, s2, h⟩)
      · exact ⟨[], r, hr⟩
      · exact ⟨c :: s1, s2, by rw [h]; rfl⟩
    · rintro ⟨s1, s2, h⟩
      cases s1 with
      | nil => exact Or.inl ⟨s2, h⟩
      | cons a as =>
        simp only [List.cons_append, List.cons.injEq] at h
        exact Or.inr ⟨as, s2, h.2⟩

/-- The splitter never returns an empty piece list. -/
theorem jsSplitGo_ne_nil (pat : List Char) :
    ∀ fuel l, jsSplitGo pat fuel l ≠ [] := by
  intro fuel
  induction fuel with
  | zero =>
    intro l
    cases l with
    | nil => simp [jsSplitGo]
    | cons c t => simp [jsSplitGo]
  | succ fuel ih =>
    intro l
    cases l with
    | nil => simp [jsSplitGo]
    | cons c t =>
      unfold jsSplitGo
      split
      · simp
      · split
        · simp
        · simp

/-- Shorthand lemmas for intercalating character lists. -/
theorem intercalate_single (sep x : List Char) : List.intercalate sep [x] = x := by
  simp [List.intercalate, List.intersperse]

/-- Intercalate over at least two pieces unfolds once. -/
theorem intercalate_cons2 (sep x y : List Char) (zs : List (List Char)) :
    List.intercalate sep (x :: y :: zs) = x ++ sep ++ List.intercalate sep (y :: zs) := by
  simp [List.intercalate, List.intersperse, List.append_assoc]

/-- The global replacement is the intercalation of the replacement text over
the gap pieces. -/
theorem replaceGo_eq_intercalate (pat rep : List Char) :
    ∀ fuel l, l.length ≤ fuel →
      replaceGo pat rep fuel l = List.intercalate rep (jsSplitGo pat fuel l) := by
  intro fuel
  induction fuel with
  | zero =>
    intro l hl
    cases l with
    | nil => simp [replaceGo, jsSplitGo, intercalate_single]
    | cons c t => simp at hl
  | succ fuel ih =>
    intro l hl
    cases l with
    | nil => simp [replaceGo, jsSplitGo, intercalate_single]
    | cons c t =>
      unfold replaceGo jsSplitGo
      split
      · rename_i hm
        have hpat : pat ≠ [] := hm.1
        have hdrop : ((c :: t).drop pat.length).length ≤ fuel := by
          have h1 : 1 ≤ pat.length := by
            cases pat with
            | nil => exact absurd rfl hpat
            | cons a as => simp
          simp only [List.length_drop, List.length_cons]
          simp only [List.length_cons] at hl
          omega
        rw [ih _ hdrop]
        cases hsp : jsSplitGo pat fuel ((c :: t).drop pat.length) with
        | nil => exact absurd hsp (jsSplitGo_ne_nil pat fuel _)
        | cons p ps =>
          rw [intercalate_cons2]
          simp
      · rename_i hm
        have hlt : t.length ≤ fuel := by
          simp only [List.length_cons] at hl
          omega
        rw [ih _ hlt]
        cases hsp : jsSplitGo pat fuel t with
        | nil => exact absurd hsp (jsSplitGo_ne_nil pat fuel _)
        | cons p ps =>
          cases ps with
          | nil => rw [intercalate_single, intercalate_single]
          | cons q qs =>
            rw [intercalate_cons2, intercalate_cons2]
            simp

/-- The first gap piece is a prefix of the scanned list. -/
theorem jsSplitGo_head_front (pat : List Char) :
    ∀ fuel l p ps, jsSplitGo pat fuel l = p :: ps → ∃ r, p ++ r = l := by
  intro fuel
  induction fuel with
  | zero =>
    intro l p ps h
    cases l with
    | nil =>
      simp [jsSplitGo] at h
      exact ⟨[], by rw [h.1]; rfl⟩
    | cons c t =>
      simp [jsSplitGo] at h
      exact ⟨[], by rw [h.1]; simp⟩
  | succ fuel ih =>
    intro l p ps h
    cases l with
    | nil =>
      simp [jsSplitGo] at h
      exact ⟨[], by rw [h.1]; rfl⟩
    | cons c t =>
      unfold jsSplitGo at h
      split at h
      · simp only [List.cons.injEq] at h
        exact ⟨c :: t, by rw [← h.1]; rfl⟩
      · revert h
        cases hsp : jsSplitGo pat fuel t with
        | nil => intro h; exact absurd hsp (jsSplitGo_ne_nil pat fuel t)
        | cons p0 ps0 =>
          intro h
          simp only [List.cons.injEq] at h
          obtain ⟨r, hr⟩ := ih t p0 ps0 hsp
          refine ⟨r, ?_⟩
          rw [← h.1]
          simpa using congrArg (fun x => c :: x) hr

/-- Every gap piece is free of the (nonempty) pattern. -/
theorem jsSplitGo_pieces_free (pat : List Char) (hpat : pat ≠ []) :
    ∀ fuel l, l.length ≤ fuel → ∀ p ∈ jsSplitGo pat fuel l, hasSub pat p = false := by
  intro fuel
  induction fuel with
  | zero =>
    intro l hl p hp
    cases l with
    | nil =>
      simp [jsSplitGo] at hp
      subst hp
      cases pat with
      | nil => exact absurd rfl hpat
      | cons a as => rfl
    | cons c t => simp at hl
  | succ fuel ih =>
    intro l hl p hp
    cases l with
    | nil =>
      simp [jsSplitGo] at hp
      subst hp
      cases pat with
      | nil => exact absurd rfl hpat
      | cons a as => rfl
    | cons c t =>
      unfold jsSplitGo at hp
      split at hp
      · rename_i hm
        have hdrop : ((c :: t).drop pat.length).length ≤ fuel := by
          have h1 : 1 ≤ pat.length := by
            cases pat with
            | nil => exact absurd rfl hpat
            | cons a as => simp
          simp only [List.length_drop, List.length_cons]
          simp only [List.length_cons] at hl
          omega
        rcases List.mem_cons.mp hp with hp0 | hp0
        · subst hp0
          cases pat with
          | nil => exact absurd rfl hpat
          | cons a as => rfl
        · exact ih _ hdrop p hp0
      · rename_i hm
        have hnl : leadsWith pat (c :: t) = false := by
          by_cases hb : leadsWith pat (c :: t) = true
          · exact absurd ⟨hpat, hb⟩ hm
          · exact Bool.eq_false_iff.mpr hb
        have hlt : t.length ≤ fuel := by
          simp only [List.length_cons] at hl
          omega
        revert hp
        cases hsp : jsSplitGo pat fuel t with
        | nil => intro hp; exact absurd hsp (jsSplitGo_ne_nil pat fuel t)
        | cons p0 ps0 =>
          intro hp
          rcases List.mem_cons.mp hp with hp1 | hp1
          · subst hp1
            have hfree0 : hasSub pat p0 = false := by
              apply ih t hlt p0
              rw [hsp]
              exact List.mem_cons_self p0 ps0
            have hnl0 : leadsWith pat (c :: p0) = false := by
              by_cases hb : leadsWith pat (c :: p0) = true
              · exfalso
                obtain ⟨r, hr⟩ := (leadsWith_iff pat (c :: p0)).mp hb
                obtain ⟨r2, hr2⟩ := jsSplitGo_head_front pat fuel t p0 ps0 hsp
                have : leadsWith pat (c :: t) = true := by
                  rw [leadsWith_iff]
                  refine ⟨r ++ r2, ?_⟩
                  rw [← hr2, ← List.append_assoc, ← hr]
                  rfl
                rw [this] at hnl
                exact Bool.noConfusion hnl
              · exact Bool.eq_false_iff.mpr hb
            show hasSub pat (c :: p0) = false
            unfold hasSub
            rw [hnl0, hfree0]
            rfl
          · apply ih t hlt p
            rw [hsp]
            exact List.mem_cons_of_mem p0 hp1

/-- Text without an occurrence of the pattern is left unchanged by the
global replacement. -/
theorem replaceGo_no_occurrence (pat rep : List Char) :
    ∀ fuel l, hasSub pat l = false → replaceGo pat rep fuel l = l := by
  intro fuel
  induction fuel with
  | zero =>
    intro l _
    cases l with
    | nil => rfl
    | cons c t => rfl
  | succ fuel ih =>
    intro l hfree
    cases l with
    | nil => rfl
    | cons c t =>
      unfold hasSub at hfree
      rw [Bool.or_eq_false_iff] at hfree
      unfold replaceGo
      rw [if_neg (fun hm => by rw [hm.2] at hfree; exact Bool.noConfusion hfree.1)]
      rw [ih t hfree.2]

/-- Rewriting leaves an html without any manifest-URL occurrence unchanged
(and completes, given that every entry has a pathname). -/
theorem zipRewrite_unchanged (urls : List String) (html : String)
    (hsome : ∀ u ∈ urls, (relativeUrlOf u).isSome = true)
    (hfree : ∀ u ∈ urls, hasSub u.data html.data = false) :
    zipRewrite urls html = some html := by
  induction urls with
  | nil => rfl
  | cons u t ih =>
    have hs := hsome u (List.mem_cons_self u t)
    obtain ⟨r, hr⟩ := Option.isSome_iff_exists.mp hs
    have hrep : jsReplaceAll html u r = html := by
      have h2 := replaceGo_no_occurrence u.data r.data html.data.length html.data
        (hfree u (List.mem_cons_self u t))
      calc jsReplaceAll html u r = ⟨replaceList u.data r.data html.data⟩ := rfl
        _ = ⟨html.data⟩ := by
              rw [show replaceList u.data r.data html.data = html.data from h2]
        _ = html := rfl
    unfold zipRewrite
    rw [hr]
    show zipRewrite t (jsReplaceAll html u r) = some html
    rw [hrep]
    exact ih (fun v hv => hsome v (List.mem_cons_of_mem u hv))
      (fun v hv => hfree v (List.mem_cons_of_mem u hv))

/-- C5 (amended): the rewrite is a global, left-to-right exact-string
substitution: for each entry the current html decomposes into entry-free gap
pieces intercalated with the substitution text, so every occurrence present
at that step is consumed; and html containing no occurrence of any manifest
URL is left unchanged.  A later entry's substitution can however re-create an
earlier entry's URL by juxtaposition, so after the whole rewrite an
originally-absolute manifest URL may remain (see the counterexample). -/
theorem zipRewrite_spec :
    (∀ (s u r : String), u ≠ "" → ∃ pieces, pieces ≠ [] ∧
      (jsReplaceAll s u r).data = List.intercalate r.data pieces ∧
      ∀ p ∈ pieces, hasSub u.data p = false) ∧
    (∀ (urls : List String) (html : String),
      (∀ u ∈ urls, (relativeUrlOf u).isSome = true) →
      (∀ u ∈ urls, hasSub u.data html.data = false) →
      zipRewrite urls html = some html) := by
  constructor
  · intro s u r hne
    have hdata : u.data ≠ [] := fun hd => hne (String.ext (by rw [hd]))
    refine ⟨jsSplit u.data s.data, ?_, ?_, ?_⟩
    · exact jsSplitGo_ne_nil u.data s.data.length s.data
    · exact replaceGo_eq_intercalate u.data r.data s.data.length s.data le_rfl
    · intro p hp
      exact jsSplitGo_pieces_free u.data hdata s.data.length s.data le_rfl p hp
  · exact zipRewrite_unchanged

/-- Witness for the amended C5 at concrete strings. -/
theorem zipRewrite_spec_witness :
    (∃ pieces, pieces ≠ [] ∧
      (jsReplaceAll "aXbXc" "X" "Y").data = List.intercalate "Y".data pieces ∧
      ∀ p ∈ pieces, hasSub "X".data p = false) ∧
    zipRewrite ["http://q/z.png"] "no occurrences here" = some "no occurrences here" :=
  ⟨zipRewrite_spec.1 "aXbXc" "X" "Y" (by decide),
   zipRewrite_spec.2 ["http://q/z.png"] "no occurrences here" (by decide) (by decide)⟩

/-! ### Helper lemmas for the sanitizer -/

/-- Hexadecimal digits are printable. -/
theorem hexChar_printable (k : Nat) : printableAscii (hexChar k) = true := by
  have h : k % 16 < 16 := Nat.mod_lt _ (by decide)
  have hall : ∀ m, m < 16 → printableAscii ("0123456789abcdef".data.getD m '0') = true := by
    decide
  exact hall (k % 16) h

/-- All digits of a hexadecimal reference are printable. -/
theorem hexDigitsGo_printable :
    ∀ fuel n, ∀ d ∈ hexDigitsGo fuel n, printableAscii d = true := by
  intro fuel
  induction fuel with
  | zero =>
    intro n d hd
    simp [hexDigitsGo] at hd
    subst hd
    exact hexChar_printable _
  | succ fuel ih =>
    intro n d hd
    unfold hexDigitsGo at hd
    split at hd
    · simp at hd
      subst hd
      exact hexChar_printable _
    · rcases List.mem_append.mp hd with h | h
      · exact ih _ d h
      · simp at h
        subst h
        exact hexChar_printable _

/-- The named references consist of printable characters. -/
theorem namedRef_printable (c : Char) (s : List Char) (h : namedRef c = some s) :
    ∀ d ∈ s, printableAscii d = true := by
  unfold namedRef at h
  split at h
  · simp only [Option.some.injEq] at h
    subst h
    decide
  · split at h
    · simp only [Option.some.injEq] at h
      subst h
      decide
    · split at h
      · simp only [Option.some.injEq] at h
        subst h
        decide
      · exact absurd h (by simp)

/-- Every character the encoder emits is printable ASCII. -/
theorem heEncodeChar_printable (c : Char) : ∀ d ∈ heEncodeChar c, printableAscii d = true := by
  intro d hd
  unfold heEncodeChar at hd
  split at hd
  · rename_i hp
    simp at hd
    subst hd
    exact hp
  · revert hd
    cases hnr : namedRef c with
    | some s =>
      intro hd
      exact namedRef_printable c s hnr d hd
    | none =>
      intro hd
      rcases List.mem_append.mp hd with h | h
      · rcases List.mem_append.mp h with h2 | h2
        · have hfix : ∀ d ∈ "&#x".data, printableAscii d = true := by decide
          exact hfix d h2
        · exact hexDigitsGo_printable _ _ d h2
      · simp at h
        subst h
        decide

/-- Printable characters pass through the encoder unchanged. -/
theorem heEncodeChar_of_printable (c : Char) (h : printableAscii c = true) :
    heEncodeChar c = [c] := by
  unfold heEncodeChar
  rw [if_pos h]

/-- The encoder is the identity on printable text. -/
theorem bind_heEncodeChar_id (l : List Char) (h : ∀ c ∈ l, printableAscii c = true) :
    l.flatMap heEncodeChar = l := by
  induction l with
  | nil => rfl
  | cons c t ih =>
    rw [List.flatMap_cons, heEncodeChar_of_printable c (h c (List.mem_cons_self c t)),
      ih (fun x hx => h x (List.mem_cons_of_mem c hx))]
    rfl

/-- The whole-string encoder emits only printable characters. -/
theorem heEncode_printable (s : String) : ∀ d ∈ (heEncode s).data, printableAscii d = true := by
  intro d hd
  have hd2 : d ∈ s.data.flatMap heEncodeChar := hd
  simp only [List.mem_flatMap] at hd2
  obtain ⟨c, hc, hdc⟩ := hd2
  exact heEncodeChar_printable c d hdc

/-- The whole-string encoder fixes printable text. -/
theorem heEncode_fixed (s : String) (h : ∀ c ∈ s.data, printableAscii c = true) :
    heEncode s = s := by
  calc heEncode s = ⟨s.data.flatMap heEncodeChar⟩ := rfl
    _ = ⟨s.data⟩ := by rw [bind_heEncodeChar_id s.data h]
    _ = s := rfl

/-- The tab map fixes tab-free character lists. -/
theorem map_tab_id (l : List Char) (h : ∀ c ∈ l, ¬ c = '\t') :
    l.map (fun c => if c == '\t' then ' ' else c) = l := by
  induction l with
  | nil => rfl
  | cons c t ih =>
    have hc : ¬ ((c == '\t') = true) := by
      simp only [beq_iff_eq]
      exact h c (List.mem_cons_self c t)
    rw [List.map_cons, if_neg hc, ih (fun x hx => h x (List.mem_cons_of_mem c hx))]

/-- Tab replacement fixes tab-free text. -/
theorem tabToSpace_fixed (s : String) (h : ∀ c ∈ s.data, ¬ c = '\t') : tabToSpace s = s := by
  calc tabToSpace s = ⟨s.data.map (fun c => if c == '\t' then ' ' else c)⟩ := rfl
    _ = ⟨s.data⟩ := by rw [map_tab_id s.data h]
    _ = s := rfl

/-- A printable character is not a tab. -/
theorem printable_no_tab (c : Char) (h : printableAscii c = true) : ¬ c = '\t' := by
  intro he
  subst he
  exact absurd h (by decide)

/-- C8: the sanitize routine is idempotent on inputs with no tab and no raw
unsafe symbol, and its output never contains a literal tab character. -/
theorem secureHtml_spec :
    (∀ s : String, (∀ c ∈ s.data, ¬ c = '\t' ∧ c ∉ unsafeChars) →
      secureHtml (secureHtml s) = secureHtml s) ∧
    (∀ s : String, '\t' ∉ (secureHtml s).data) := by
  have key : ∀ s : String, secureHtml (secureHtml s) = secureHtml s := by
    intro s
    have hp : ∀ c ∈ (secureHtml s).data, printableAscii c = true :=
      heEncode_printable (tabToSpace s)
    show heEncode (tabToSpace (secureHtml s)) = secureHtml s
    rw [tabToSpace_fixed _ (fun c hc => printable_no_tab c (hp c hc))]
    exact heEncode_fixed _ hp
  constructor
  · intro s _
    exact key s
  · intro s hmem
    have := heEncode_printable (tabToSpace s) '\t' hmem
    exact absurd this (by decide)

/-- Witness for C8 at concrete strings. -/
theorem secureHtml_spec_witness :
    secureHtml (secureHtml "hello world") = secureHtml "hello world" ∧
    '\t' ∉ (secureHtml "a\tb").data :=
  ⟨secureHtml_spec.1 "hello world" (by decide), secureHtml_spec.2 "a\tb"⟩

/-! ### Claim C2: finalize only after all settle -/

/-- C2: in every reachable state of every export request, if the archive has
been finalized then every per-image deferred has settled (its outcome was
delivered and resolved), and if the response has been ended then the archive
was finalized first. -/
theorem zip_finalize_after_settle (outs : List FetchOutcome) (s : ZipState)
    (h : ZipReach outs s) :
    (s.finalized = true → ∀ i, i < outs.length → settledIdx outs s i) ∧
    (s.ended = true → s.finalized = true) := by
  induction h with
  | init =>
    constructor
    · intro hf
      exact absurd hf (by simp [zipInit])
    · intro he
      exact absurd he (by simp [zipInit])
  | step hreach hstep ih =>
    cases hstep with
    | deliver i s h1 h2 =>
      constructor
      · intro hf i2 hi2
        have hset := ih.1 hf i2 hi2
        exact ⟨List.mem_cons_of_mem i hset.1, hset.2⟩
      · intro he
        exact ih.2 he
    | finalize s h1 h2 =>
      constructor
      · intro _ i hi
        exact h1 i hi
      · intro _
        rfl
    | endResponse s h1 h2 =>
      constructor
      · intro hf i hi
        exact ih.1 hf i hi
      · intro _
        exact h1

/-- Witness for C2 on a concrete completed run with one successful fetch. -/
theorem zip_finalize_after_settle_witness :
    0 ∈ zipW3.delivered ∧ settles (singleOk.getD 0 .transportError) = true := by
  have hd : ZipStep singleOk zipInit zipW1 := by
    have h := @ZipStep.deliver singleOk 0 zipInit (by decide) (by decide)
    have he : deliverState singleOk 0 zipInit = zipW1 := by decide
    rw [he] at h
    exact h
  have hf : ZipStep singleOk zipW1 zipW2 := by
    have h := @ZipStep.finalize singleOk zipW1
      (by
        intro i hi
        have hi0 : i = 0 := Nat.lt_one_iff.mp (by simpa [singleOk] using hi)
        subst hi0
        exact ⟨by decide, by decide⟩)
      (by decide)
    exact h
  have hn : ZipStep singleOk zipW2 zipW3 := by
    have h := @ZipStep.endResponse singleOk zipW2 (by decide) (by decide)
    exact h
  have hreach : ZipReach singleOk zipW3 :=
    ZipReach.step (ZipReach.step (ZipReach.step ZipReach.init hd) hf) hn
  exact (zip_finalize_after_settle singleOk zipW3 hreach).1 rfl 0 (by decide)

/-- C1 (divergence of the code at the failing input): the handler resolves a
transport error but not a 500 response, so with outcomes 200, 500, 200 no
reachable state of the export ever has a finalized archive: the 500 entry's
deferred stays pending forever, `Promise.all` never resolves and the export
never completes, where the claim requires the entry to be resolved as skipped
and the archive finalized with the html and the two fetched images. -/
theorem zip_http500_never_finalized :
    settles (FetchOutcome.response 500) = false ∧
    settles FetchOutcome.transportError = true ∧
    ∀ s : ZipState, ZipReach outs500 s → s.finalized = false := by
  refine ⟨rfl, rfl, ?_⟩
  intro s h
  induction h with
  | init => rfl
  | step hreach hstep ih =>
    cases hstep with
    | deliver i s h1 h2 =>
      exact ih
    | finalize s h1 h2 =>
      exfalso
      have h500 := (h1 1 (by decide)).2
      exact absurd h500 (by decide)
    | endResponse s h1 h2 =>
      exact ih

/-- Witness for C1 at the issuing state of the failing input. -/
theorem zip_http500_never_finalized_witness : zipInit.finalized = false :=
  zip_http500_never_finalized.2.2 zipInit ZipReach.init
